import Mathlib

/-!
Verification of the markline document-editing pipeline
(src/markline/__init__.py): a shallow embedding of the element-tree data
model, the locator dispatch, selection, metadata extraction, the
properties store, and the draft-mutation operations, together with
theorems settling the specification's claims about them.
-/

set_option linter.unreachableTactic false
set_option linter.unusedTactic false
set_option linter.unnecessarySeqFocus false

namespace ML

mutual

/-- An HTML element tree as parsed by BeautifulSoup: a tag with a name, an
ordered attribute mapping and an ordered forest of children, or a
navigable text node. -/
inductive Elem : Type where
  | tag (name : String) (attrs : List (String × String)) (children : Forest)
  | text (s : String)

/-- An ordered forest of sibling elements (the children of a tag, or the
top-level parse forest). -/
inductive Forest : Type where
  | nil
  | cons (e : Elem) (f : Forest)

end

mutual

/-- Decidable structural equality of elements. -/
def Elem.decEq : (a b : Elem) → Decidable (a = b)
  | .text s, .text t =>
    if h : s = t then .isTrue (by rw [h]) else .isFalse (by simp [h])
  | .text _, .tag _ _ _ => .isFalse (by simp)
  | .tag _ _ _, .text _ => .isFalse (by simp)
  | .tag n a cs, .tag m b ds =>
    if hn : n = m then
      if ha : a = b then
        match Forest.decEq cs ds with
        | .isTrue h => .isTrue (by rw [hn, ha, h])
        | .isFalse h => .isFalse (by simp [hn, ha, h])
      else .isFalse (by simp [ha])
    else .isFalse (by simp [hn])

/-- Decidable structural equality of forests. -/
def Forest.decEq : (xs ys : Forest) → Decidable (xs = ys)
  | .nil, .nil => .isTrue rfl
  | .nil, .cons _ _ => .isFalse (by simp)
  | .cons _ _, .nil => .isFalse (by simp)
  | .cons x xs, .cons y ys =>
    match Elem.decEq x y, Forest.decEq xs ys with
    | .isTrue h1, .isTrue h2 => .isTrue (by rw [h1, h2])
    | .isFalse h1, _ => .isFalse (by simp [h1])
    | _, .isFalse h2 => .isFalse (by simp [h2])

end

instance : DecidableEq Elem := Elem.decEq

instance : DecidableEq Forest := Forest.decEq

/-- Build a forest from a list of elements. -/
def Forest.ofList : List Elem → Forest
  | [] => .nil
  | e :: es => .cons e (Forest.ofList es)

/-- The direct elements of a forest as a list, in order (no descent). -/
def Forest.toList : Forest → List Elem
  | .nil => []
  | .cons e f => e :: Forest.toList f

/-- Append two forests. -/
def Forest.append : Forest → Forest → Forest
  | .nil, g => g
  | .cons e f, g => .cons e (Forest.append f g)

/-- The children of an element (a text node has none). -/
def Elem.children : Elem → Forest
  | .tag _ _ cs => cs
  | .text _ => .nil

/-- The attribute mapping of an element (`tag.attrs` in bs4). -/
def Elem.attrsOf : Elem → List (String × String)
  | .tag _ a _ => a
  | .text _ => []

/-- Python dict lookup `d.get(k)` on an attribute mapping: the value bound to
the first occurrence of the key, None when absent. -/
def attrGet (attrs : List (String × String)) (k : String) : Option String :=
  match attrs with
  | [] => none
  | (k2, v) :: rest => if k2 == k then some v else attrGet rest k

mutual

/-- All nodes below an element in document (preorder) order, the element
itself excluded (bs4's `.descendants`). -/
def Elem.descendants : Elem → List Elem
  | .tag _ _ cs => Forest.nodes cs
  | .text _ => []

/-- All nodes of a forest in document (preorder) order: each root followed
by its descendants, left to right. -/
def Forest.nodes : Forest → List Elem
  | .nil => []
  | .cons e f => e :: (e.descendants ++ Forest.nodes f)

end

mutual

/-- The concatenated text content of an element (`tag.text` in bs4: all
descendant strings joined in document order). -/
def Elem.textContent : Elem → String
  | .text s => s
  | .tag _ _ cs => Forest.textContent cs

/-- The concatenated text content of a forest. -/
def Forest.textContent : Forest → String
  | .nil => ""
  | .cons e f => e.textContent ++ Forest.textContent f

end

/-- The whitespace set trimmed by Python `str.strip()` with no argument. -/
def pyIsSpace (c : Char) : Bool :=
  c == ' ' || c == '\t' || c == '\n' || c == '\r' || c == '\x0b' || c == '\x0c'

/-- Python `str.strip()` with no argument: trim whitespace at both ends. -/
def pyStrip (s : String) : String :=
  ⟨((s.data.dropWhile pyIsSpace).reverse.dropWhile pyIsSpace).reverse⟩

/-- TagLocator (src/markline/__init__.py lines 33-56): the argument record
for the BeautifulSoup find methods. `name = none` embeds Python
`name=None` (no tag-name filter) and `limit = none` embeds `limit=None`. -/
structure TagLocator : Type where
  name : Option String
  attrs : List (String × String)
  recursive : Bool
  limit : Option Nat
  deriving DecidableEq

/-- CSSLocator (src lines 59-75): the argument record for the BeautifulSoup
select methods. -/
structure CSSLocator : Type where
  selector : String
  namespaces : List (String × String)
  limit : Option Nat
  deriving DecidableEq

/-- The locator union `CSSLocator | TagLocator | str` accepted by the
selection and mutation methods; a plain string is shorthand for a CSS
selector. -/
inductive Locator : Type where
  | tagLoc (t : TagLocator)
  | cssLoc (c : CSSLocator)
  | strLoc (s : String)
  deriving DecidableEq

/-- Python truthiness of a dict argument: non-empty. -/
def pyTruthy (l : List (String × String)) : Bool := !l.isEmpty

/-- loc (src lines 78-117). Transliterates:
`if all((any((attrs, recursive)), namespaces)): raise ValueError(...)`,
then `if attrs or recursive is False: return TagLocator(...)`,
`else: return CSSLocator(...)`. `recursive` is a plain bool, so
`any((attrs, recursive))` is true whenever `recursive` is true, which is
its default. Defaults at the call sites are `attrs = []`,
`recursive = true`, `namespaces = []`, `limit = none`. -/
def loc (name_selector : String) (attrs : List (String × String))
    (recursive : Bool) (namespaces : List (String × String))
    (limit : Option Nat) : Except String Locator :=
  if (pyTruthy attrs || recursive) && pyTruthy namespaces then
    .error "Cannot use attrs or recursive arguments together with namespaces."
  else if pyTruthy attrs || recursive == false then
    .ok (.tagLoc ⟨some name_selector, attrs, recursive, limit⟩)
  else
    .ok (.cssLoc ⟨name_selector, namespaces, limit⟩)

/-- Does an element pass a find-method tag filter? bs4 semantics: a name
filter of None admits every tag; every attribute filter pair must be
present with exactly that value; text nodes never match a tag filter. -/
def tagMatches (name : Option String) (attrs : List (String × String)) :
    Elem → Bool
  | .tag n a _ =>
      (match name with
       | none => true
       | some m => n == m)
      && attrs.all (fun kv => attrGet a kv.1 == some kv.2)
  | .text _ => false

/-- The SoupSieve selector grammar as modelled here: a plain type selector
("p": every tag with that name, independent of context), or an
adjacent-sibling combinator between two type selectors ("p + q": every
tag named q whose immediately preceding element sibling is named p --
a contextual selector, whose matches depend on the surrounding tree).
Richer SoupSieve features (other combinators, pseudo-classes, attribute
selectors) are outside the modelled grammar. -/
inductive Sel : Type where
  | typeSel (name : String)
  | adjSel (fst snd : String)
  deriving DecidableEq

/-- Split a character list at the first " + " combinator, if any. -/
def splitAdj : List Char → Option (List Char × List Char)
  | ' ' :: '+' :: ' ' :: rest => some ([], rest)
  | c :: rest =>
    (match splitAdj rest with
     | some (l, r) => some (c :: l, r)
     | none => none)
  | [] => none

/-- Parse a selector string into the modelled grammar: a spaced " + "
combinator makes an adjacent-sibling selector, anything else is read as
a type selector. -/
def parseSel (s : String) : Sel :=
  match splitAdj s.data with
  | some (l, r) => .adjSel ⟨l⟩ ⟨r⟩
  | none => .typeSel s

/-- Type-selector matching: the selector names a tag and matches every tag
with that name, independent of the node's context. A namespace mapping
does not affect a type selector, and text nodes never match. -/
def cssMatches (selector : String) : Elem → Bool
  | .tag n _ _ => n == selector
  | .text _ => false

/-- The matches of an adjacent-sibling selector "a + b" in a forest, in
document (preorder) order: a tag named b matches when the nearest
preceding element sibling (text nodes in between are ignored, as in
CSS) is a tag named a; the accumulator carries that previous element
sibling's name, reset on descending into children. -/
def adjMatchesF (a b : String) : Option String → Forest → List Elem
  | _, .nil => []
  | prev, .cons (.text _) f => adjMatchesF a b prev f
  | prev, .cons (.tag n at2 cs) f =>
    (if prev == some a && n == b then [Elem.tag n at2 cs] else []) ++
      (adjMatchesF a b none cs ++ adjMatchesF a b (some n) f)

/-- The positions (paths of child indices) of the adjacent-sibling matches,
in document order, mirroring `adjMatchesF`. -/
def adjPathsF (a b : String) : Option String → Nat → Forest → List (List Nat)
  | _, _, .nil => []
  | prev, i, .cons (.text _) f => adjPathsF a b prev (i + 1) f
  | prev, i, .cons (.tag n _ cs) f =>
    (if prev == some a && n == b then [[i]] else []) ++
      ((adjPathsF a b none 0 cs).map (fun p => i :: p) ++
        adjPathsF a b (some n) (i + 1) f)

/-- SoupSieve result truncation: bs4 passes `limit or 0` and 0 means
unlimited, so only a positive limit keeps a prefix of the matches. -/
def takeLim (lim : Option Nat) (xs : List (List Nat)) : List (List Nat) :=
  match lim with
  | none => xs
  | some 0 => xs
  | some (n + 1) => xs.take (n + 1)

/-- Element-list counterpart of `takeLim`. -/
def takeLimE (lim : Option Nat) (xs : List Elem) : List Elem :=
  match lim with
  | none => xs
  | some 0 => xs
  | some (n + 1) => xs.take (n + 1)

/-- Remove from a forest the subtrees at a given set of positions (the
snapshot of decomposed matches): a child whose singleton path is listed
is removed whole; otherwise the listed paths below it are stripped of
their head index and removed inside it. -/
def removePathsF (S : List (List Nat)) (i : Nat) : Forest → Forest
  | .nil => .nil
  | .cons e f =>
    if S.contains [i] then removePathsF S (i + 1) f
    else
      .cons
        (match e with
         | .tag n a cs =>
           .tag n a (removePathsF
             (S.filterMap (fun p =>
               match p with
               | j :: rest => if j == i then some rest else none
               | [] => none)) 0 cs)
         | t => t)
        (removePathsF S (i + 1) f)

/-- bs4's text filter confronted with a Python int: `find_all`'s fourth
positional parameter is the `string` text filter, and the markline code
unpacks its locator tuples positionally, so the integer `limit` field
lands in that slot. An integer compares unequal to every NavigableString
(and to None), so no element passes such a filter. -/
def intStringMatches (n : Nat) (e : Elem) : Bool :=
  match n, e with
  | _, _ => false

/-- bs4 `find_all(name, attrs, recursive, string)` as markline invokes it
with `find_all(*TagLocator(...))`: candidates are all descendants of the
root (direct children only when not recursive, and never the root
itself), filtered by the tag filter and by the string filter, which here
is the locator's int `limit` (see `intStringMatches`). bs4's own `limit`
parameter is left at None by this call pattern. -/
def find_all (name : Option String) (attrs : List (String × String))
    (recursive : Bool) (strFilter : Option Nat) (root : Elem) : List Elem :=
  let pool := if recursive then Forest.nodes root.children
              else (root.children).toList
  pool.filter (fun e =>
    tagMatches name attrs e &&
      (match strFilter with
       | none => true
       | some n => intStringMatches n e))

/-- bs4 `select(selector, namespaces, limit)` via SoupSieve: the matching
descendants in document order (a type selector filters nodes by name; an
adjacent-sibling selector matches contextually); bs4 passes `limit or 0`
so both None and 0 mean unlimited, and a positive limit keeps the first
`limit` matches. -/
def cssSelect (selector : String) (_ns : List (String × String))
    (limit : Option Nat) (root : Elem) : List Elem :=
  match parseSel selector with
  | .typeSel t =>
    takeLimE limit ((Forest.nodes root.children).filter (cssMatches t))
  | .adjSel a b =>
    takeLimE limit (adjMatchesF a b none root.children)

/-- The raw element results of Markup.select_all (src lines 588-595):
dispatch on the locator union; a plain string is wrapped as
`CSSLocator(s)` with its default empty namespaces and None limit. -/
def rawMatches (l : Locator) (root : Elem) : List Elem :=
  match l with
  | .tagLoc t => find_all t.name t.attrs t.recursive t.limit root
  | .cssLoc c => cssSelect c.selector c.namespaces c.limit root
  | .strLoc s => cssSelect s [] none root

/-- The single element resolved by Markup.select (src lines 557-564):
`find(*loc)` for a TagLocator (first find_all result, with the locator's
limit in the string-filter slot), `select_one(selector, namespaces)` for
a CSSLocator (note: select_one is passed no limit), likewise for a plain
string. -/
def selectFirst (l : Locator) (root : Elem) : Option Elem :=
  match l with
  | .tagLoc t => (find_all t.name t.attrs t.recursive t.limit root).head?
  | .cssLoc c => (cssSelect c.selector c.namespaces none root).head?
  | .strLoc s => (cssSelect s [] none root).head?

/-- Python truthiness of the optional `get_attr` argument: a non-empty
string. -/
def truthyAttr : Option String → Bool
  | none => false
  | some s => !s.isEmpty

/-- The value Markup.select returns: the element itself (Python None on a
miss), an attribute value, or stripped text. -/
inductive SelectResult : Type where
  | elem (e : Option Elem)
  | attr (v : Option String)
  | txt (t : String)
  deriving DecidableEq

/-- Markup.select (src lines 540-569). The extraction branches dereference
the query result with no None check (`result.attrs`, `result.text`), so a
miss combined with `get_attr` or `get_text` raises AttributeError, while
a bare miss returns Python None. -/
def select (l : Locator) (get_attr : Option String) (get_text : Bool)
    (root : Elem) : Except String SelectResult :=
  let result := selectFirst l root
  if truthyAttr get_attr then
    match result with
    | none => .error "AttributeError: NoneType object has no attribute attrs"
    | some e => .ok (.attr (attrGet e.attrsOf (get_attr.getD "")))
  else if get_text then
    match result with
    | none => .error "AttributeError: NoneType object has no attribute text"
    | some e => .ok (.txt (pyStrip e.textContent))
  else
    .ok (.elem result)

/-- The value Markup.select_all returns: the matched elements, their
attribute values (None kept for a missing attribute), or their non-empty
stripped texts. -/
inductive SelectAllResult : Type where
  | elems (es : List Elem)
  | attrs (vs : List (Option String))
  | texts (ts : List String)
  deriving DecidableEq

/-- Markup.select_all (src lines 571-600). `get_attr` maps
`r.attrs.get(get_attr)` over every result; `get_text` keeps
`r.text.strip()` only when it is non-empty (the comprehension filters on
the stripped text's truthiness). -/
def select_all (l : Locator) (get_attr : Option String) (get_text : Bool)
    (root : Elem) : SelectAllResult :=
  let results := rawMatches l root
  if truthyAttr get_attr then
    .attrs (results.map (fun r => attrGet r.attrsOf (get_attr.getD "")))
  else if get_text then
    .texts (results.filterMap (fun r =>
      if pyStrip r.textContent == "" then none else some (pyStrip r.textContent)))
  else
    .elems results

/-- coalesce (src lines 196-200): the first truthy argument (a non-empty
string), or Python None when every argument is falsy. -/
def coalesce (args : List (Option String)) : Option String :=
  match args with
  | [] => none
  | none :: rest => coalesce rest
  | some s :: rest => if s.isEmpty then coalesce rest else some s

/-- The default meta-array key set DEFAULT_META_ARRAYS (src lines 18-30). -/
def DEFAULT_META_ARRAYS : List String :=
  ["article:author", "article:tag", "book:author", "book:tag", "music:album",
   "music:musician", "og:locale:alternate", "video:actor", "video:director",
   "video:tag", "video:writer"]

/-- The identifying key of one meta element (src lines 489-491):
`key_terms = ["property", "name"] + [k for k in tag.attrs if k != "content"]`
and then the first truthy `tag.attrs.get(k)` wins (coalesce), None when
every candidate is falsy. -/
def metaKey (tag : Elem) : Option String :=
  let key_terms :=
    ["property", "name"] ++
      (tag.attrsOf.map Prod.fst).filter (fun k => k != "content")
  coalesce (key_terms.map (attrGet tag.attrsOf))

/-- A value in the metadata store: a scalar content value (possibly Python
None when the meta element has no content attribute), or the ordered list
accumulated for an array key. -/
inductive MetaVal : Type where
  | scalar (v : Option String)
  | array (vs : List (Option String))
  deriving DecidableEq

/-- The metadata store: a Python dict from the (possibly None) meta key to
its value, in insertion order. -/
def MetaStore : Type := List (Option String × MetaVal)

/-- Python dict assignment `d[k] = v`: replace the binding in place when the
key is present, append it otherwise. -/
def dictSet (m : MetaStore) (k : Option String) (v : MetaVal) : MetaStore :=
  match m with
  | [] => [(k, v)]
  | (k2, v2) :: rest =>
    if k2 == k then (k2, v) :: rest else (k2, v2) :: dictSet rest k v

/-- Python dict lookup `d.get(k)` on the metadata store. -/
def dictGet (m : MetaStore) (k : Option String) : Option MetaVal :=
  match m with
  | [] => none
  | (k2, v2) :: rest => if k2 == k then some v2 else dictGet rest k

/-- The list an array key already holds in the store: `meta.get(key, [])`
(a scalar previous value yields the empty default exactly as in Python,
where that case is unreachable because membership in the array-key set
is a fixed property of the key). -/
def prevList (v : Option MetaVal) : List (Option String) :=
  match v with
  | some (.array vs) => vs
  | _ => []

/-- One iteration of the gather_meta loop (src lines 488-497): derive the
key and the content value; an array key appends the value to
`meta.get(key, [])`, creating the list on first occurrence; any other
key is assigned directly, overwriting a previous value. -/
def metaStep (arrays : List String) (m : MetaStore) (tag : Elem) : MetaStore :=
  let key := metaKey tag
  let value := attrGet tag.attrsOf "content"
  let isArrayKey :=
    match key with
    | some k => (DEFAULT_META_ARRAYS ++ arrays).contains k
    | none => false
  if isArrayKey then
    dictSet m key (.array (prevList (dictGet m key) ++ [value]))
  else
    dictSet m key (.scalar value)

/-- The meta elements of a document: `self.original.find_all("meta")`. -/
def metaTags (root : Elem) : List Elem :=
  find_all (some "meta") [] true none root

/-- Markup.gather_meta with counts=False (src lines 468-500): fold the meta
elements of `original` into the store. -/
def gather_meta (arrays : List String) (root : Elem) : MetaStore :=
  (metaTags root).foldl (metaStep arrays) []

/-- Markup.gather_meta with counts=True (src lines 497-499):
`dict(Counter(meta_keys).most_common())`, which maps every key that was
encountered to its number of occurrences (the most-common-first ordering
of the dict does not affect lookups). Embedded as the lookup function of
that dict. -/
def gatherMetaCounts (root : Elem) (k : Option String) : Nat :=
  ((metaTags root).map metaKey).count k

/-- The ordered content values of the meta elements in a tag list whose
derived key equals k. -/
def metaOccOf (k : String) (ts : List Elem) : List (Option String) :=
  ts.filterMap (fun t =>
    if metaKey t == some k then some (attrGet t.attrsOf "content") else none)

/-- The ordered content values, in document order, of a document's meta
elements whose derived key equals k. -/
def metaOcc (root : Elem) (k : String) : List (Option String) :=
  metaOccOf k (metaTags root)

/-- A Python value held by the properties store: a string, a list of
strings, or None. -/
inductive PVal : Type where
  | str (s : String)
  | list (xs : List String)
  | pyNone
  deriving DecidableEq

/-- Wrap an optional string the way set_properties stores it. -/
def optPVal : Option String → PVal
  | some s => .str s
  | none => .pyNone

/-- Does a character list contain the two-character sequence comma-space?
Models the Python test `", " in value`. -/
def hasCommaSpace (cs : List Char) : Bool :=
  match cs with
  | ',' :: ' ' :: _ => true
  | _ :: rest => hasCommaSpace rest
  | [] => false

/-- String-level wrapper for `hasCommaSpace`. -/
def containsCommaSpace (s : String) : Bool := hasCommaSpace s.data

/-- One line of Markup.properties_block (src lines 528-538), following the
Python statement order: a str containing comma-space is first wrapped in
double quotes (and is still a str); then a list becomes its items joined
with comma-space plus a trailing comma (now a str); finally
`str(value)` stringifies whatever remains (identity on a str, "None" for
None). -/
def formatLine (key : String) (value : PVal) : String :=
  let v1 :=
    match value with
    | .str s => if containsCommaSpace s then PVal.str ("\"" ++ s ++ "\"") else .str s
    | v => v
  let v2 : String :=
    match v1 with
    | .list xs => String.intercalate ", " xs ++ ","
    | .str s => s
    | .pyNone => "None"
  key ++ ":: " ++ v2 ++ "\n"

/-- Markup.properties_block (src lines 528-538): accumulate one formatted
line per properties entry, in insertion order. -/
def properties_block (props : List (String × PVal)) : String :=
  props.foldl (fun acc kv => acc ++ formatLine kv.1 kv.2) ""

/-- The specification's formatting rule for a single properties value,
stated from the spec text (refinement target for properties_block): a
string containing a comma-space sequence is wrapped in double quotes; a
list is its items joined with comma-space followed by a trailing comma;
all other values are stringified directly. -/
def specFormatValue : PVal → String
  | .str s => if containsCommaSpace s then "\"" ++ s ++ "\"" else s
  | .list xs => String.intercalate ", " xs ++ ","
  | .pyNone => "None"

/-- The specification's properties_block (refinement target): a
newline-terminated `key:: value` line per entry, in insertion order. -/
def specPropertiesBlock : List (String × PVal) → String
  | [] => ""
  | kv :: rest => kv.1 ++ ":: " ++ specFormatValue kv.2 ++ "\n" ++ specPropertiesBlock rest

/-- bs4 `tag.string`: the string of a text node is itself; a tag with
exactly one child defers to that child; anything else is None. -/
def Elem.stringProp : Elem → Option String
  | .text s => some s
  | .tag _ _ (.cons c .nil) => c.stringProp
  | .tag _ _ _ => none

/-- `self.original.title`: the first title element of the document
(`find("title")`), or None. -/
def findTitle (root : Elem) : Option Elem :=
  (find_all (some "title") [] true none root).head?

/-- Meta lookup as set_properties uses it, for the default configuration in
which og:title, og:description and og:site_name are scalar keys. -/
def metaScalar (m : MetaStore) (k : String) : Option String :=
  match dictGet m (some k) with
  | some (.scalar v) => v
  | _ => none

/-- Markup.set_properties (src lines 502-516). Python evaluates the argument
`self.original.title.string` before coalesce is entered, so a document
with no title element raises AttributeError here even when an og:title
metadata value is present. -/
def set_properties (meta : MetaStore) (original : Elem) (url : String) :
    Except String (List (String × PVal)) :=
  match findTitle original with
  | none => .error "AttributeError: NoneType object has no attribute string"
  | some t =>
    .ok [("headline", optPVal (coalesce [metaScalar meta "og:title", t.stringProp])),
         ("description", optPVal (metaScalar meta "og:description")),
         ("publisher", optPVal (metaScalar meta "og:site_name")),
         ("url", .str url)]

/-- Is there budget left to return another query result? None embeds an
unlimited query. -/
def budgetPos : Option Nat → Bool
  | none => true
  | some n => !(n == 0)

/-- Spend `k` result slots of a budget (saturating at zero). -/
def consume (b : Option Nat) (k : Nat) : Option Nat :=
  match b with
  | none => none
  | some n => some (n - k)

/-- The number of nodes of a forest (descendants included) that satisfy a
node predicate. -/
def cntF (pred : Elem → Bool) : Forest → Nat
  | .nil => 0
  | .cons (.text s) f => (if pred (.text s) then 1 else 0) + cntF pred f
  | .cons (.tag n a cs) f =>
    (if pred (.tag n a cs) then 1 else 0) + cntF pred cs + cntF pred f

/-- The effect on a forest of Markup.drop for one recursive query
(src lines 650-663): `for result in self.select_all(loc): result.decompose()`.
The query lists its matches in document (preorder) order, stopping after
the limit budget is spent; decomposing a match removes the whole subtree,
so a later match inside an earlier one is destroyed with it and its own
decompose call no longer touches the tree. Hence the effect is a preorder
sweep: while budget remains, a matching node is removed together with its
subtree, spending one slot for itself plus one per match inside it (those
inner matches also occupied slots of the query result list); a
non-matching node is kept and the sweep continues below it. -/
def dropRun (pred : Elem → Bool) : Option Nat → Forest → Forest × Option Nat
  | b, .nil => (.nil, b)
  | b, .cons (.text s) f =>
    if budgetPos b && pred (.text s) then dropRun pred (consume b 1) f
    else ((dropRun pred b f).1.cons (.text s) , (dropRun pred b f).2)
  | b, .cons (.tag n a cs) f =>
    if budgetPos b && pred (.tag n a cs) then
      dropRun pred (consume b (1 + cntF pred cs)) f
    else
      (.cons (.tag n a (dropRun pred b cs).1) (dropRun pred (dropRun pred b cs).2 f).1,
        (dropRun pred (dropRun pred b cs).2 f).2)

/-- The positions (paths of child indices) of the matches a budgeted
recursive query returns on a forest, in document order, together with the
remaining budget: each match while budget remains spends one slot. These
are the positions of the `select_all` results that drop decomposes. -/
def pathsRun (pred : Elem → Bool) : Option Nat → Nat → Forest → List (List Nat) × Option Nat
  | b, _, .nil => ([], b)
  | b, i, .cons (.text s) f =>
    if budgetPos b && pred (.text s) then
      (([i] :: (pathsRun pred (consume b 1) (i + 1) f).1),
        (pathsRun pred (consume b 1) (i + 1) f).2)
    else (pathsRun pred b (i + 1) f)
  | b, i, .cons (.tag n a cs) f =>
    if budgetPos b && pred (.tag n a cs) then
      ([i] :: ((pathsRun pred (consume b 1) 0 cs).1.map (fun p => i :: p) ++
          (pathsRun pred (pathsRun pred (consume b 1) 0 cs).2 (i + 1) f).1),
        (pathsRun pred (pathsRun pred (consume b 1) 0 cs).2 (i + 1) f).2)
    else
      ((pathsRun pred b 0 cs).1.map (fun p => i :: p) ++
          (pathsRun pred (pathsRun pred b 0 cs).2 (i + 1) f).1,
        (pathsRun pred (pathsRun pred b 0 cs).2 (i + 1) f).2)

/-- The effect on a forest of Markup.drop for one non-recursive unlimited
query: the matches are the matching direct children, and decomposing them
removes each whole subtree. -/
def removeDirect (pred : Elem → Bool) : Forest → Forest
  | .nil => .nil
  | .cons e f => if pred e then removeDirect pred f else .cons e (removeDirect pred f)

/-- The positions of the matches of a non-recursive unlimited query:
the indices of the matching direct children. -/
def directPaths (pred : Elem → Bool) (i : Nat) : Forest → List (List Nat)
  | .nil => []
  | .cons e f => (if pred e then [[i]] else []) ++ directPaths pred (i + 1) f

/-- The removal behaviour a locator induces in Markup.drop: no-op (a
TagLocator whose int limit fills the find_all string filter, so
select_all returns nothing), direct-children removal (non-recursive
TagLocator), a budgeted recursive sweep (node-local matching), or the
snapshot removal of a contextual adjacent-sibling selector's matches. -/
inductive DropKind : Type where
  | idK
  | direct (pred : Elem → Bool)
  | run (pred : Elem → Bool) (b : Option Nat)
  | adj (a b : String) (lim : Option Nat)

/-- bs4 passes `limit or 0` to SoupSieve and 0 means unlimited, so limits
None and 0 both normalise to an unlimited budget. -/
def normLimit : Option Nat → Option Nat
  | none => none
  | some 0 => none
  | some (n + 1) => some (n + 1)

/-- The removal behaviour of each locator variant (see `rawMatches` for the
query each variant performs). -/
def Locator.dropKind : Locator → DropKind
  | .tagLoc t =>
    if t.limit.isSome then .idK
    else if t.recursive then .run (tagMatches t.name t.attrs) none
    else .direct (tagMatches t.name t.attrs)
  | .cssLoc c =>
    (match parseSel c.selector with
     | .typeSel t => .run (cssMatches t) (normLimit c.limit)
     | .adjSel a b => .adj a b (normLimit c.limit))
  | .strLoc s =>
    (match parseSel s with
     | .typeSel t => .run (cssMatches t) none
     | .adjSel a b => .adj a b none)

/-- Apply a removal behaviour to a forest. For a contextual selector the
matches are the snapshot select_all takes on the unmodified draft, and
decompose then removes exactly those positions. -/
def dropK : DropKind → Forest → Forest
  | .idK, f => f
  | .direct pred, f => removeDirect pred f
  | .run pred b, f => (dropRun pred b f).1
  | .adj a b lim, f => removePathsF (takeLim lim (adjPathsF a b none 0 f)) 0 f

/-- Markup.drop of a single locator applied to a draft tree: queries search
descendants only, so the root always survives and only its child forest
is swept. -/
def dropOne (l : Locator) (root : Elem) : Elem :=
  match root with
  | .tag n a cs => .tag n a (dropK l.dropKind cs)
  | .text s => .text s

/-- Markup.drop (src lines 650-663): drop each locator's matches in turn,
each later locator querying the already-mutated draft. -/
def drop (ls : List Locator) (root : Elem) : Elem :=
  ls.foldl (fun t l => dropOne l t) root

/-- The positions of the select_all matches of a removal behaviour. -/
def selPathsK : DropKind → Forest → List (List Nat)
  | .idK, _ => []
  | .direct pred, f => directPaths pred 0 f
  | .run pred b, f => (pathsRun pred b 0 f).1
  | .adj a b lim, f => takeLim lim (adjPathsF a b none 0 f)

/-- The positions (paths of child indices below the root) of the matches
`select_all` returns for a locator on a draft tree. -/
def selPaths (l : Locator) (root : Elem) : List (List Nat) :=
  selPathsK l.dropKind root.children

/-- Is the first path a prefix of the second (so the second position lies in
the subtree rooted at the first, or is the same position)? -/
def isPre : List Nat → List Nat → Bool
  | [], _ => true
  | _ :: _, [] => false
  | i :: p, j :: q => i == j && isPre p q

/-- Are two sets of match positions pairwise disjoint as subtrees: no
position of one lies inside (or equals) a subtree matched by the other? -/
def pairwiseFree (as bs : List (List Nat)) : Bool :=
  as.all (fun p => bs.all (fun q => !isPre p q && !isPre q p))

/-- The effect on a forest of Markup.apply for one budgeted recursive query
(src lines 614-635): the editor runs on every match of `select_all`, in
document order while the limit budget lasts. The editor mutates matched
elements in place; the sweep applies it to each matched node (with its
own subtree already processed). -/
def applyRun (pred : Elem → Bool) (ed : Elem → Elem) :
    Option Nat → Forest → Forest × Option Nat
  | b, .nil => (.nil, b)
  | b, .cons (.text s) f =>
    if budgetPos b && pred (.text s) then
      ((applyRun pred ed (consume b 1) f).1.cons (ed (.text s)),
        (applyRun pred ed (consume b 1) f).2)
    else ((applyRun pred ed b f).1.cons (.text s), (applyRun pred ed b f).2)
  | b, .cons (.tag n a cs) f =>
    if budgetPos b && pred (.tag n a cs) then
      ((applyRun pred ed (applyRun pred ed (consume b 1) cs).2 f).1.cons
          (ed (.tag n a (applyRun pred ed (consume b 1) cs).1)),
        (applyRun pred ed (applyRun pred ed (consume b 1) cs).2 f).2)
    else
      ((applyRun pred ed (applyRun pred ed b cs).2 f).1.cons
          (.tag n a (applyRun pred ed b cs).1),
        (applyRun pred ed (applyRun pred ed b cs).2 f).2)

/-- Markup.apply for a non-recursive unlimited query: the editor runs on
each matching direct child. -/
def applyDirect (pred : Elem → Bool) (ed : Elem → Elem) : Forest → Forest
  | .nil => .nil
  | .cons e f =>
    .cons (if pred e then ed e else e) (applyDirect pred ed f)

/-- Apply an editor at a snapshot set of positions (children first, as in
`applyRun`). -/
def applyPathsF (ed : Elem → Elem) (S : List (List Nat)) (i : Nat) :
    Forest → Forest
  | .nil => .nil
  | .cons e f =>
    .cons
      (let e2 :=
        match e with
        | .tag n a cs =>
          Elem.tag n a (applyPathsF ed
            (S.filterMap (fun p =>
              match p with
              | j :: rest => if j == i then some rest else none
              | [] => none)) 0 cs)
        | t => t
      if S.contains [i] then ed e2 else e2)
      (applyPathsF ed S (i + 1) f)

/-- Apply an editor under a removal-style behaviour descriptor. -/
def applyK : DropKind → (Elem → Elem) → Forest → Forest
  | .idK, _, f => f
  | .direct pred, ed, f => applyDirect pred ed f
  | .run pred b, ed, f => (applyRun pred ed b f).1
  | .adj a b lim, ed, f =>
    applyPathsF ed (takeLim lim (adjPathsF a b none 0 f)) 0 f

/-- Markup.apply of one locator to a draft tree (matches are descendants
only, the root is untouched). -/
def applyOne (l : Locator) (ed : Elem → Elem) (root : Elem) : Elem :=
  match root with
  | .tag n a cs => .tag n a (applyK l.dropKind ed cs)
  | .text s => .text s

/-- Markup.apply (src lines 614-635): run the editor over every match of
every locator, in order. -/
def applyLocs (ed : Elem → Elem) (ls : List Locator) (root : Elem) : Elem :=
  ls.foldl (fun t l => applyOne l ed t) root

/-- The Markup document state (src lines 389-435): the pristine original
tree, the mutable draft (Python None after a missed filter), the
array-key configuration, the metadata store and the properties store. -/
structure Markup : Type where
  url : String
  original : Elem
  draft : Option Elem
  meta_arrays : List String
  meta : MetaStore
  properties : List (String × PVal)

/-- Markup.__init__ after fetch (src lines 431-435): draft is a structural
copy of original (bs4 `copy.copy` deep-copies a soup, so the trees share
no nodes; in the pure embedding the copy is the same tree value), then
the metadata and properties stores are computed from original. -/
def Markup.init (original : Elem) (url : String) (meta_arrays : List String) :
    Except String Markup :=
  match set_properties (gather_meta meta_arrays original) original url with
  | .error e => .error e
  | .ok props =>
    .ok ⟨url, original, some original, meta_arrays, gather_meta meta_arrays original, props⟩

/-- One pipeline operation on a Markup document. Editor callbacks are
embedded as pure tree transforms: apply's editor mutates a matched
element in place, edit's editor mutates the draft (the contract
documented for Markup.edit). -/
inductive Op : Type where
  | opSelect (l : Locator) (ga : Option String) (gt : Bool)
  | opSelectAll (l : Locator) (ga : Option String) (gt : Bool)
  | opFilter (l : Locator)
  | opDrop (ls : List Locator)
  | opApply (ed : Elem → Elem) (ls : List Locator)
  | opEdit (ed : Option Elem → Option Elem)
  | opPrepend (es : List Elem)
  | opAppend (es : List Elem)
  | opCounts (ls : List Locator)
  | opReset

/-- Run one operation against the document state (src lines 540-710).
Operations that query or mutate the draft raise AttributeError when the
draft is Python None (after a missed filter); select/select_all/counts
return data and leave the state unchanged; filter reassigns the draft to
the single best match (possibly None); drop and apply mutate the draft
tree; prepend wraps the old draft and the new elements in a fresh div;
append adds trailing children; reset restores the draft from original
(the test suite's `markup.draft = copy(markup.original)` idiom). -/
def applyOp (m : Markup) : Op → Except String Markup
  | .opSelect l ga gt =>
    match m.draft with
    | none => .error "AttributeError: NoneType draft cannot be queried"
    | some d =>
      match select l ga gt d with
      | .error e => .error e
      | .ok _ => .ok m
  | .opSelectAll _ _ _ =>
    match m.draft with
    | none => .error "AttributeError: NoneType draft cannot be queried"
    | some _ => .ok m
  | .opFilter l =>
    match m.draft with
    | none => .error "AttributeError: NoneType draft cannot be queried"
    | some d =>
      .ok ⟨m.url, m.original, selectFirst l d, m.meta_arrays, m.meta, m.properties⟩
  | .opDrop ls =>
    match m.draft with
    | none => .error "AttributeError: NoneType draft cannot be queried"
    | some d =>
      .ok ⟨m.url, m.original, some (drop ls d), m.meta_arrays, m.meta, m.properties⟩
  | .opApply ed ls =>
    match m.draft with
    | none => .error "AttributeError: NoneType draft cannot be queried"
    | some d =>
      .ok ⟨m.url, m.original, some (applyLocs ed ls d), m.meta_arrays, m.meta, m.properties⟩
  | .opEdit ed =>
    .ok ⟨m.url, m.original, ed m.draft, m.meta_arrays, m.meta, m.properties⟩
  | .opPrepend es =>
    match m.draft with
    | none => .error "AttributeError: NoneType draft cannot be appended"
    | some d =>
      .ok ⟨m.url, m.original, some (.tag "div" [] (Forest.ofList (es ++ [d]))),
        m.meta_arrays, m.meta, m.properties⟩
  | .opAppend es =>
    match m.draft with
    | none => .error "AttributeError: NoneType draft cannot be appended"
    | some (.text _) => .error "ValueError: cannot append to a NavigableString"
    | some (.tag n a cs) =>
      .ok ⟨m.url, m.original, some (.tag n a (Forest.append cs (Forest.ofList es))),
        m.meta_arrays, m.meta, m.properties⟩
  | .opCounts _ =>
    match m.draft with
    | none => .error "AttributeError: NoneType draft cannot be queried"
    | some _ => .ok m
  | .opReset =>
    .ok ⟨m.url, m.original, some m.original, m.meta_arrays, m.meta, m.properties⟩

/-- Run a pipeline of operations left to right, stopping at the first
raised error. -/
def runOps : List Op → Markup → Except String Markup
  | [], m => .ok m
  | o :: os, m =>
    match applyOp m o with
    | .error e => .error e
    | .ok m2 => runOps os m2

/-- A well-behaved locator predicate: it never matches a text node, and on
a tag it depends only on the name and attributes, not on the children
(true of both find-method tag filters and type selectors). -/
def predOK (p : Elem → Bool) : Prop :=
  (∀ s, p (.text s) = false) ∧
  (∀ n a cs cs2, p (.tag n a cs) = p (.tag n a cs2))

/-- A removal behaviour whose matching is node-local: a no-op, a direct or
recursive sweep with a well-behaved predicate. A contextual
adjacent-sibling behaviour is excluded -- its matches depend on the
surrounding tree. -/
def kindOK : DropKind → Prop
  | .idK => True
  | .direct p => predOK p
  | .run p _ => predOK p
  | .adj _ _ _ => False

/-- Is a locator's matching node-local: a TagLocator, or a CSS/string
locator whose selector parses as a plain type selector (no combinator)? -/
def isNodeLocal : Locator → Bool
  | .tagLoc _ => true
  | .cssLoc c =>
    (match parseSel c.selector with
     | .typeSel _ => true
     | .adjSel _ _ => false)
  | .strLoc s =>
    (match parseSel s with
     | .typeSel _ => true
     | .adjSel _ _ => false)

/-! Concrete document fixtures used by the claim theorems and witnesses. -/

/-- A div holding two paragraphs (used to exhibit select_all behaviour). -/
def twoParas : Elem :=
  .tag "div" [] (.ofList
    [.tag "p" [] (.cons (.text "a") .nil), .tag "p" [] (.cons (.text "b") .nil)])

/-- A page whose head carries two article:tag meta elements (values
"Publishing" then "Article") and a title. -/
def metaFixture : Elem :=
  .tag "html" [] (.ofList [.tag "head" [] (.ofList
    [.tag "meta" [("property", "article:tag"), ("content", "Publishing")] .nil,
     .tag "meta" [("property", "article:tag"), ("content", "Article")] .nil,
     .tag "title" [] (.cons (.text "T") .nil)])])

/-- A page with an og:title meta element but no title element. -/
def noTitleFixture : Elem :=
  .tag "html" [] (.ofList [.tag "head" [] (.ofList
    [.tag "meta" [("property", "og:title"), ("content", "X")] .nil])])

/-- A div holding a paragraph with an id attribute, and one without. -/
def attrFixture : Elem :=
  .tag "div" [] (.ofList
    [.tag "p" [("id", "x")] (.cons (.text "a") .nil),
     .tag "p" [] (.cons (.text " ") .nil)])

/-- A page whose head carries two author meta elements (a scalar,
non-array key) with values "A" then "B". -/
def scalarFixture : Elem :=
  .tag "html" [] (.ofList [.tag "head" [] (.ofList
    [.tag "meta" [("name", "author"), ("content", "A")] .nil,
     .tag "meta" [("name", "author"), ("content", "B")] .nil])])

/-- A div holding a p, a q and an r child: the fixture on which the
contextual selector "p + q" (matching the q) and the type selector "p"
(matching the p) have disjoint matches yet drop in the two orders ends
differently. -/
def adjFixture : Elem :=
  .tag "div" [] (.ofList
    [.tag "p" [] (.cons (.text "a") .nil),
     .tag "q" [] (.cons (.text "c") .nil),
     .tag "r" [] (.cons (.text "d") .nil)])

/-- A div holding two paragraphs around a q element, whose p and q matches
are disjoint subtrees. -/
def dropFixture : Elem :=
  .tag "div" [] (.ofList
    [.tag "p" [] (.cons (.text "a") .nil),
     .tag "q" [] (.cons (.text "c") .nil),
     .tag "p" [] (.cons (.text "b") .nil)])

/-- A small document with a title and one paragraph. -/
def pipeFixture : Elem :=
  .tag "html" [] (.ofList
    [.tag "title" [] (.cons (.text "T") .nil),
     .tag "p" [] (.cons (.text "a") .nil)])

/-- The Markup state `Markup.init pipeFixture "u" []` produces. -/
def pipeInit : Markup :=
  ⟨"u", pipeFixture, some pipeFixture, [], gather_meta [] pipeFixture,
    [("headline", .str "T"), ("description", .pyNone), ("publisher", .pyNone),
     ("url", .str "u")]⟩

/-- `pipeInit` after dropping every paragraph from the draft. -/
def pipeDropped : Markup :=
  ⟨"u", pipeFixture,
    some (.tag "html" [] (.ofList [.tag "title" [] (.cons (.text "T") .nil)])),
    [], gather_meta [] pipeFixture,
    [("headline", .str "T"), ("description", .pyNone), ("publisher", .pyNone),
     ("url", .str "u")]⟩

/-! Claim theorems. -/

/-- C2: the claim states that `loc` with an empty attribute filter and the
recursive flag not explicitly false turns a non-empty namespace mapping
into a CSSLocator without error. The code instead raises: the guard
`all((any((attrs, recursive)), namespaces))` sees the default
`recursive=True` as truthy, so every call that supplies namespaces
without setting `recursive=False` raises ValueError, contradicting the
function's own docstring (namespaces is documented as the Select-method
argument, and Select is documented as the result when attrs/recursive
are not provided). This theorem evaluates the code at the failing input
`loc("div", namespaces={"a": "b"})`. -/
theorem claim_C2_loc_namespaces_raises :
    loc "div" [] true [("a", "b")] none =
      .error "Cannot use attrs or recursive arguments together with namespaces." :=
  rfl

/-- C3: the claim states that a namespace mapping combined with a non-empty
attribute filter or with `recursive=False` fails with a configuration
error. The attrs half is true of the code (first conjunct), but with
`recursive=False` the guard `any((attrs, recursive))` is falsy, so the
code silently returns a TagLocator (the namespaces are dropped) instead
of raising -- contradicting its own error message "Cannot use attrs or
recursive arguments together with namespaces" (second conjunct evaluates
the code at that failing input). -/
theorem claim_C3_loc_nonrecursive_namespaces_silent :
    loc "div" [("class", "x")] true [("a", "b")] none =
      .error "Cannot use attrs or recursive arguments together with namespaces." ∧
    loc "div" [] false [("a", "b")] none =
      .ok (.tagLoc ⟨some "div", [], false, none⟩) :=
  ⟨rfl, rfl⟩

/-- C4 counterexample: the claim states that a selection miss never raises,
including when attribute or text extraction is requested on the missing
result. On an empty document, `select("p", get_attr="id")` and
`select("p", get_text=True)` both dereference the missing result and
raise AttributeError. -/
theorem claim_C4_counterexample :
    select (.strLoc "p") (some "id") false (.tag "html" [] .nil) =
      .error "AttributeError: NoneType object has no attribute attrs" ∧
    select (.strLoc "p") none true (.tag "html" [] .nil) =
      .error "AttributeError: NoneType object has no attribute text" :=
  ⟨rfl, rfl⟩

/-- C4 amended: when no element matches, `select` without extraction
returns the absent result (Python None) rather than raising, but
requesting attribute extraction or text extraction on the missing result
raises AttributeError. -/
theorem claim_C4_amended (l : Locator) (root : Elem)
    (h : selectFirst l root = none) :
    select l none false root = .ok (.elem none) ∧
    (∀ a : String, a ≠ "" →
      select l (some a) false root =
        .error "AttributeError: NoneType object has no attribute attrs") ∧
    select l none true root =
      .error "AttributeError: NoneType object has no attribute text" := by
  refine ⟨?_, ?_, ?_⟩
  · simp [select, h, truthyAttr]
  · intro a ha
    have he : a.isEmpty = false := by
      rcases Bool.eq_false_or_eq_true a.isEmpty with h2 | h2
      · exact absurd ((String.isEmpty_iff a).mp h2) ha
      · exact h2
    simp [select, h, truthyAttr, he]
  · simp [select, h, truthyAttr]

/-- C4 witness: the amended theorem applied to the locator "p", the empty
document and the attribute name "id". -/
theorem claim_C4_amended_witness :
    select (.strLoc "p") none false (.tag "html" [] .nil) = .ok (.elem none) ∧
    (∀ a : String, a ≠ "" →
      select (.strLoc "p") (some a) false (.tag "html" [] .nil) =
        .error "AttributeError: NoneType object has no attribute attrs") ∧
    select (.strLoc "p") none true (.tag "html" [] .nil) =
      .error "AttributeError: NoneType object has no attribute text" :=
  claim_C4_amended (.strLoc "p") (.tag "html" [] .nil) rfl

/-- C5: the claim states that a TagLocator or CSSLocator limit n makes
select_all return the first n matches in document order. For a
CSSLocator the code honours the limit (third conjunct), but for a
TagLocator the positional unpacking `find_all(*loc)` places the int
limit in find_all's `string` filter slot, which no element passes, so
the query returns nothing at all instead of the first n matches (first
conjunct; the second shows the same query unlimited has two matches).
This contradicts the locator's own docstring ("Stop looking after
finding this many results"). -/
theorem claim_C5_taglocator_limit_bug :
    select_all (.tagLoc ⟨some "p", [], true, some 1⟩) none false twoParas =
      .elems [] ∧
    select_all (.tagLoc ⟨some "p", [], true, none⟩) none false twoParas =
      .elems [.tag "p" [] (.cons (.text "a") .nil),
              .tag "p" [] (.cons (.text "b") .nil)] ∧
    select_all (.cssLoc ⟨"p", [], some 1⟩) none false twoParas =
      .elems [.tag "p" [] (.cons (.text "a") .nil)] :=
  ⟨rfl, rfl, rfl⟩

/-- C9: constructing a document whose parsed tree has no title element
raises during construction even when og:title metadata is present,
because set_properties evaluates `self.original.title.string` eagerly
before coalesce picks the first non-null value. -/
theorem claim_C9_missing_title_raises (original : Elem) (url : String)
    (arrays : List String) (hno : findTitle original = none) :
    Markup.init original url arrays =
      .error "AttributeError: NoneType object has no attribute string" := by
  simp [Markup.init, set_properties, hno]

/-- C9 witness: the no-title fixture carries an og:title value "X", its
title lookup is None, and construction raises. -/
theorem claim_C9_witness :
    metaScalar (gather_meta [] noTitleFixture) "og:title" = some "X" ∧
    findTitle noTitleFixture = none ∧
    Markup.init noTitleFixture "u" [] =
      .error "AttributeError: NoneType object has no attribute string" :=
  ⟨rfl, rfl, claim_C9_missing_title_raises noTitleFixture "u" [] rfl⟩

/-- Each properties_block line agrees with the spec's per-value formatting
rule followed by key prefix and newline. -/
theorem formatLine_spec (k : String) (v : PVal) :
    formatLine k v = k ++ ":: " ++ specFormatValue v ++ "\n" := by
  cases v with
  | str s =>
    by_cases h : containsCommaSpace s = true
    · simp [formatLine, specFormatValue, h]
    · simp [formatLine, specFormatValue, h]
  | list xs => rfl
  | pyNone => rfl

/-- The properties_block accumulator shifted by an arbitrary already-built
string. -/
theorem properties_block_shift (props : List (String × PVal)) :
    ∀ s : String,
      props.foldl (fun acc kv => acc ++ formatLine kv.1 kv.2) s =
        s ++ specPropertiesBlock props := by
  induction props with
  | nil => intro s; simp [specPropertiesBlock]
  | cons kv rest ih =>
    intro s
    rw [List.foldl_cons, ih, formatLine_spec, specPropertiesBlock]
    apply String.ext
    simp

/-- C7: properties_block serializes one `key:: value` line per entry,
newline-terminated, in insertion order, with the spec's formatting rules
(comma-space strings quoted, lists joined with comma-space plus a
trailing comma, everything else stringified directly); in particular the
headline/authors example renders as stated. -/
theorem claim_C7_properties_block :
    (∀ props, properties_block props = specPropertiesBlock props) ∧
    properties_block [("headline", .str "T"), ("authors", .list ["A"])] =
      "headline:: T\nauthors:: A,\n" := by
  constructor
  · intro props
    rw [properties_block, properties_block_shift]
    apply String.ext
    simp
  · rfl

/-- C10: select_all with attribute extraction returns exactly one entry per
matched element -- the i-th entry is the i-th match's attribute value,
None kept in place when the attribute is missing -- whereas text
extraction drops every match whose stripped text is empty (the returned
text list never contains the empty string). -/
theorem claim_C10_extraction (l : Locator) (root : Elem) (a : String)
    (ha : a ≠ "") :
    (∃ vs, select_all l (some a) false root = .attrs vs ∧
      vs.length = (rawMatches l root).length ∧
      ∀ i : Nat, vs[i]? =
        ((rawMatches l root)[i]?).map (fun r => attrGet r.attrsOf a)) ∧
    (∃ ts, select_all l none true root = .texts ts ∧ "" ∉ ts) := by
  have hb : truthyAttr (some a) = true := by
    have : a.isEmpty = false := by
      rcases Bool.eq_false_or_eq_true a.isEmpty with h | h
      · exact absurd ((String.isEmpty_iff a).mp h) ha
      · exact h
    simp [truthyAttr, this]
  constructor
  · refine ⟨(rawMatches l root).map (fun r => attrGet r.attrsOf a), ?_, ?_, ?_⟩
    · simp [select_all, hb]
    · simp
    · intro i
      simp [List.getElem?_map]
  · refine ⟨(rawMatches l root).filterMap (fun r =>
      if pyStrip r.textContent == "" then none
      else some (pyStrip r.textContent)), ?_, ?_⟩
    · simp [select_all, truthyAttr]
    · intro hmem
      rcases List.mem_filterMap.mp hmem with ⟨r, _, heq⟩
      by_cases hc : (pyStrip r.textContent == "") = true
      · rw [if_pos hc] at heq
        exact Option.noConfusion heq
      · rw [if_neg hc] at heq
        have : pyStrip r.textContent = "" := (Option.some.injEq _ _).mp heq
        simp [this] at hc

/-- C10 witness: the extraction theorem applied to the locator "p", the
attribute fixture (one paragraph has an id, one does not) and the
attribute name "id". -/
theorem claim_C10_witness :
    (∃ vs, select_all (.strLoc "p") (some "id") false attrFixture = .attrs vs ∧
      vs.length = (rawMatches (.strLoc "p") attrFixture).length ∧
      ∀ i : Nat, vs[i]? =
        ((rawMatches (.strLoc "p") attrFixture)[i]?).map
          (fun r => attrGet r.attrsOf "id")) ∧
    (∃ ts, select_all (.strLoc "p") none true attrFixture = .texts ts ∧
      "" ∉ ts) :=
  claim_C10_extraction (.strLoc "p") attrFixture "id" (by decide)

/-- Setting a key and reading it back yields the new value. -/
theorem dictGet_dictSet_same (m : MetaStore) (k : Option String) (v : MetaVal) :
    dictGet (dictSet m k v) k = some v := by
  induction m with
  | nil => simp [dictSet, dictGet]
  | cons kv rest ih =>
    obtain ⟨k2, v2⟩ := kv
    by_cases h : (k2 == k) = true
    · simp [dictSet, dictGet, h]
    · simp only [Bool.not_eq_true] at h
      simp [dictSet, dictGet, h, ih]

/-- Setting one key leaves the lookup of a different key unchanged. -/
theorem dictGet_dictSet_other (m : MetaStore) (k k2 : Option String)
    (v : MetaVal) (h : (k2 == k) = false) :
    dictGet (dictSet m k2 v) k = dictGet m k := by
  induction m with
  | nil => simp [dictSet, dictGet, h]
  | cons kv rest ih =>
    obtain ⟨k3, v3⟩ := kv
    by_cases h3 : (k3 == k2) = true
    · have : k3 = k2 := by simpa using h3
      subst this
      simp [dictSet, dictGet, h3, h]
    · simp only [Bool.not_eq_true] at h3
      simp [dictSet, dictGet, h3, ih]

/-- Folding the gather_meta step over a tag list, for a key in the
array-key set: the key's entry collects the previously held list plus
every occurrence's content value, in order, and stays untouched when
there is no occurrence. -/
theorem gather_fold_array (arrays : List String) (k : String)
    (hk : (DEFAULT_META_ARRAYS ++ arrays).contains k = true) :
    ∀ (ts : List Elem) (m : MetaStore),
      dictGet (ts.foldl (metaStep arrays) m) (some k) =
        (if metaOccOf k ts = [] then dictGet m (some k)
         else some (.array (prevList (dictGet m (some k)) ++ metaOccOf k ts))) := by
  intro ts
  induction ts with
  | nil => intro m; simp [metaOccOf]
  | cons t ts ih =>
    intro m
    by_cases hm : (metaKey t == some k) = true
    · have hkey : metaKey t = some k := by simpa using hm
      have hstep : metaStep arrays m t =
          dictSet m (some k)
            (.array (prevList (dictGet m (some k)) ++ [attrGet t.attrsOf "content"])) := by
        simp only [metaStep, hkey, hk]
        simp
      have hocc : metaOccOf k (t :: ts) =
          attrGet t.attrsOf "content" :: metaOccOf k ts := by
        simp [metaOccOf, hkey]
      rw [List.foldl_cons, hstep, ih, hocc]
      by_cases he : metaOccOf k ts = []
      · simp [he, dictGet_dictSet_same]
      · simp only [he, if_false, dictGet_dictSet_same]
        simp [prevList, he]
    · have hm2 : (metaKey t == some k) = false := by
        simpa using hm
      have hne : metaKey t ≠ some k := by
        simpa using hm
      have hocc : metaOccOf k (t :: ts) = metaOccOf k ts := by
        simp [metaOccOf, hne]
      have hget : dictGet (metaStep arrays m t) (some k) = dictGet m (some k) := by
        simp only [metaStep]
        split
        · exact dictGet_dictSet_other _ _ _ _ hm2
        · exact dictGet_dictSet_other _ _ _ _ hm2
      rw [List.foldl_cons, ih, hocc, hget]

/-- Folding the gather_meta step over a tag list, for a key outside the
array-key set: the key's entry holds the scalar content value of the
last occurrence, and stays untouched when there is no occurrence. -/
theorem gather_fold_scalar (arrays : List String) (k : String)
    (hk : (DEFAULT_META_ARRAYS ++ arrays).contains k = false) :
    ∀ (ts : List Elem) (m : MetaStore),
      dictGet (ts.foldl (metaStep arrays) m) (some k) =
        (match (metaOccOf k ts).getLast? with
         | none => dictGet m (some k)
         | some v => some (.scalar v)) := by
  intro ts
  induction ts with
  | nil => intro m; simp [metaOccOf]
  | cons t ts ih =>
    intro m
    by_cases hm : (metaKey t == some k) = true
    · have hkey : metaKey t = some k := by simpa using hm
      have hstep : metaStep arrays m t =
          dictSet m (some k) (.scalar (attrGet t.attrsOf "content")) := by
        simp only [metaStep, hkey, hk]
        simp
      have hocc : metaOccOf k (t :: ts) =
          attrGet t.attrsOf "content" :: metaOccOf k ts := by
        simp [metaOccOf, hkey]
      rw [List.foldl_cons, hstep, ih, hocc]
      rcases he : metaOccOf k ts with _ | ⟨v, vs⟩
      · simp [dictGet_dictSet_same]
      · rcases hgl : (v :: vs).getLast? with _ | w
        · exact absurd hgl (by simp)
        · simp [hgl]
    · have hm2 : (metaKey t == some k) = false := by
        simpa using hm
      have hne : metaKey t ≠ some k := by
        simpa using hm
      have hocc : metaOccOf k (t :: ts) = metaOccOf k ts := by
        simp [metaOccOf, hne]
      have hget : dictGet (metaStep arrays m t) (some k) = dictGet m (some k) := by
        simp only [metaStep]
        split
        · exact dictGet_dictSet_other _ _ _ _ hm2
        · exact dictGet_dictSet_other _ _ _ _ hm2
      rw [List.foldl_cons, ih, hocc, hget]

/-- C6: gather_metadata maps each array-set key occurring on k meta
elements to the ordered list of its k content values (no entry when it
never occurs), maps each key outside the array set to the scalar content
value of its last occurrence (last-write-wins), and on the two
article:tag fixture the store holds ["Publishing", "Article"] while the
counts table maps article:tag to 2. -/
theorem claim_C6_gather_meta :
    (∀ (arrays : List String) (root : Elem) (k : String),
      (DEFAULT_META_ARRAYS ++ arrays).contains k = true →
      dictGet (gather_meta arrays root) (some k) =
        (if metaOcc root k = [] then none
         else some (.array (metaOcc root k)))) ∧
    (∀ (arrays : List String) (root : Elem) (k : String),
      (DEFAULT_META_ARRAYS ++ arrays).contains k = false →
      dictGet (gather_meta arrays root) (some k) =
        (match (metaOcc root k).getLast? with
         | none => none
         | some v => some (.scalar v))) ∧
    dictGet (gather_meta [] metaFixture) (some "article:tag") =
      some (.array [some "Publishing", some "Article"]) ∧
    gatherMetaCounts metaFixture (some "article:tag") = 2 := by
  refine ⟨?_, ?_, rfl, rfl⟩
  · intro arrays root k hk
    rw [gather_meta, gather_fold_array arrays k hk, metaOcc]
    by_cases he : metaOccOf k (metaTags root) = []
    · simp [he, dictGet]
    · simp [he, dictGet, prevList]
  · intro arrays root k hk
    rw [gather_meta, gather_fold_scalar arrays k hk, metaOcc]
    rcases (metaOccOf k (metaTags root)).getLast? with _ | v
    · simp [dictGet]
    · simp

/-- C6 witness: the array conjunct applied to the two-article:tag fixture
and the scalar conjunct applied to the repeated-author fixture. -/
theorem claim_C6_witness :
    (DEFAULT_META_ARRAYS ++ ([] : List String)).contains "article:tag" = true ∧
    dictGet (gather_meta [] metaFixture) (some "article:tag") =
      (if metaOcc metaFixture "article:tag" = [] then none
       else some (.array (metaOcc metaFixture "article:tag"))) ∧
    (DEFAULT_META_ARRAYS ++ ([] : List String)).contains "author" = false ∧
    dictGet (gather_meta [] scalarFixture) (some "author") =
      (match (metaOcc scalarFixture "author").getLast? with
       | none => none
       | some v => some (.scalar v)) :=
  ⟨rfl, claim_C6_gather_meta.1 [] metaFixture "article:tag" rfl, rfl,
    claim_C6_gather_meta.2.1 [] scalarFixture "author" rfl⟩

/-- Every pipeline operation leaves the original tree untouched: only the
draft field is ever reassigned. -/
theorem applyOp_original (m : Markup) (o : Op) (m2 : Markup)
    (h : applyOp m o = .ok m2) : m2.original = m.original := by
  cases o <;> simp only [applyOp] at h <;> (repeat' split at h) <;>
    first
      | exact Except.noConfusion h
      | (injection h with h2; rw [← h2])

/-- Running a pipeline never mutates the original tree. -/
theorem runOps_original (ops : List Op) :
    ∀ m m2, runOps ops m = .ok m2 → m2.original = m.original := by
  induction ops with
  | nil =>
    intro m m2 h
    simp only [runOps] at h
    injection h with h2
    rw [← h2]
  | cons o os ih =>
    intro m m2 h
    simp only [runOps] at h
    split at h
    · exact Except.noConfusion h
    · rename_i m1 h1
      rw [ih m1 m2 h, applyOp_original m o m1 h1]

/-- Running a concatenated pipeline runs the two halves in sequence. -/
theorem runOps_append (xs ys : List Op) :
    ∀ m, runOps (xs ++ ys) m =
      (match runOps xs m with
       | .ok m2 => runOps ys m2
       | .error e => .error e) := by
  induction xs with
  | nil => intro m; simp [runOps]
  | cons o os ih =>
    intro m
    simp only [List.cons_append, runOps]
    split
    · rfl
    · rename_i m1 _
      exact ih m1

/-- C1: at construction the draft is structurally equal to the original;
no pipeline of selection or mutation operations (select, select_all,
filter, drop, apply, edit, prepend, append, counts) ever changes the
original; and appending a reset (draft reassigned from original, the
test suite's copy idiom) restores draft-original structural equality. -/
theorem claim_C1_draft_original (t : Elem) (url : String)
    (arrays : List String) (ops : List Op) (m m2 : Markup)
    (hinit : Markup.init t url arrays = .ok m)
    (hrun : runOps ops m = .ok m2) :
    m.original = t ∧ m.draft = some t ∧ m2.original = t ∧
    (∀ m3, runOps (ops ++ [Op.opReset]) m = .ok m3 →
      m3.original = t ∧ m3.draft = some m3.original) := by
  have hm : m.original = t ∧ m.draft = some t := by
    simp only [Markup.init] at hinit
    split at hinit
    · exact Except.noConfusion hinit
    · injection hinit with h2
      rw [← h2]
      exact ⟨rfl, rfl⟩
  refine ⟨hm.1, hm.2, ?_, ?_⟩
  · rw [runOps_original ops m m2 hrun, hm.1]
  · intro m3 h3
    rw [runOps_append, hrun] at h3
    simp only [runOps, applyOp] at h3
    injection h3 with h4
    rw [← h4]
    exact ⟨by rw [runOps_original ops m m2 hrun, hm.1], rfl⟩

/-- C1 witness: the construction/drop/reset pipeline on the title-and-
paragraph fixture. -/
theorem claim_C1_witness :
    Markup.init pipeFixture "u" [] = .ok pipeInit ∧
    runOps [Op.opDrop [.strLoc "p"]] pipeInit = .ok pipeDropped ∧
    (pipeInit.original = pipeFixture ∧ pipeInit.draft = some pipeFixture ∧
      pipeDropped.original = pipeFixture ∧
      (∀ m3, runOps ([Op.opDrop [.strLoc "p"]] ++ [Op.opReset]) pipeInit = .ok m3 →
        m3.original = pipeFixture ∧ m3.draft = some m3.original)) :=
  ⟨rfl, rfl,
    claim_C1_draft_original pipeFixture "u" [] [Op.opDrop [.strLoc "p"]]
      pipeInit pipeDropped rfl rfl⟩

/-- Structural induction over forests in which the step for a tag gets the
induction hypothesis both for the children and for the siblings. -/
theorem forest_ind (P : Forest → Prop) (hnil : P Forest.nil)
    (htext : ∀ s f, P f → P (Forest.cons (Elem.text s) f))
    (htag : ∀ n a cs f, P cs → P f → P (Forest.cons (Elem.tag n a cs) f)) :
    ∀ f, P f :=
  @Forest.rec (fun e => P e.children) (fun f => P f)
    (fun _ _ _ ih => ih)
    (fun _ => hnil)
    hnil
    (fun e f ihe ihf =>
      match e, ihe with
      | .tag n a cs, ihe => htag n a cs f ihe ihf
      | .text s, _ => htext s f ihf)

/-- Consuming zero slots changes nothing. -/
theorem consume_zero (b : Option Nat) : consume b 0 = b := by
  cases b <;> simp [consume]

/-- Consuming in two steps consumes the sum. -/
theorem consume_consume (b : Option Nat) (i j : Nat) :
    consume (consume b i) j = consume b (i + j) := by
  cases b with
  | none => rfl
  | some n => simp [consume, Nat.sub_sub]

/-- An exhausted budget absorbs any further consumption. -/
theorem consume_of_not_pos (b : Option Nat) (h : budgetPos b = false) (k : Nat) :
    consume b k = b := by
  cases b with
  | none => simp [budgetPos] at h
  | some n =>
    have : n = 0 := by simpa [budgetPos] using h
    simp [consume, this]

/-- The budget left by a removal sweep is the entry budget minus the number
of matches in the forest (saturating). -/
theorem dropRun_budget (p : Elem → Bool) :
    ∀ f, ∀ b, (dropRun p b f).2 = consume b (cntF p f) := by
  refine forest_ind _ ?_ ?_ ?_
  · intro b
    simp [dropRun, cntF, consume_zero]
  · intro s f ih b
    simp only [dropRun, cntF]
    by_cases hb : budgetPos b = true
    · by_cases hp : p (.text s) = true
      · simp only [hb, hp, Bool.and_self, if_true, ih, consume_consume] <;>
          cases b <;> simp [consume] <;> omega
      · simp [hb, hp, ih]
    · rw [Bool.not_eq_true] at hb
      simp [hb, ih, consume_of_not_pos _ hb]
  · intro n a cs f ihcs ihf b
    simp only [dropRun, cntF]
    by_cases hb : budgetPos b = true
    · by_cases hp : p (.tag n a cs) = true
      · simp only [hb, hp, Bool.and_self, if_true, ihf, ihcs, consume_consume] <;>
          cases b <;> simp [consume] <;> omega
      · simp only [hb, hp, Bool.and_false, if_false, ihf, ihcs, consume_consume] <;>
          cases b <;> simp [consume] <;> omega
    · rw [Bool.not_eq_true] at hb
      simp [hb, ihcs, ihf, consume_of_not_pos _ hb]
  
/-- The budget left by the match-position listing is the same. -/
theorem pathsRun_budget (p : Elem → Bool) :
    ∀ f, ∀ b i, (pathsRun p b i f).2 = consume b (cntF p f) := by
  refine forest_ind _ ?_ ?_ ?_
  · intro b i
    simp [pathsRun, cntF, consume_zero]
  · intro s f ih b i
    simp only [pathsRun, cntF]
    by_cases hb : budgetPos b = true
    · by_cases hp : p (.text s) = true
      · simp only [hb, hp, Bool.and_self, if_true, ih, consume_consume] <;>
          cases b <;> simp [consume] <;> omega
      · simp [hb, hp, ih]
    · rw [Bool.not_eq_true] at hb
      simp [hb, ih, consume_of_not_pos _ hb]
  · intro n a cs f ihcs ihf b i
    simp only [pathsRun, cntF]
    by_cases hb : budgetPos b = true
    · by_cases hp : p (.tag n a cs) = true
      · simp only [hb, hp, Bool.and_self, if_true, ihf, ihcs, consume_consume] <;>
          cases b <;> simp [consume] <;> omega
      · simp only [hb, hp, Bool.and_false, if_false, ihf, ihcs, consume_consume] <;>
          cases b <;> simp [consume] <;> omega
    · rw [Bool.not_eq_true] at hb
      simp [hb, ihcs, ihf, consume_of_not_pos _ hb]

/-- With budget remaining, an empty match listing means the forest holds no
match at all. -/
theorem pathsRun_nil_cnt (p : Elem → Bool) :
    ∀ f, ∀ b i, budgetPos b = true → (pathsRun p b i f).1 = [] →
      cntF p f = 0 := by
  refine forest_ind _ ?_ ?_ ?_
  · intro b i _ _
    rfl
  · intro s f ih b i hb hpaths
    simp only [pathsRun, cntF] at *
    by_cases hp : p (.text s) = true
    · simp [hb, hp] at hpaths
    · rw [Bool.not_eq_true] at hp
      simp only [hp, Bool.and_false, if_false] at hpaths ⊢
      simpa using ih b (i + 1) hb hpaths
  · intro n a cs f ihcs ihf b i hb hpaths
    simp only [pathsRun, cntF] at *
    by_cases hp : p (.tag n a cs) = true
    · simp [hb, hp] at hpaths
    · rw [Bool.not_eq_true] at hp
      simp only [hp, Bool.and_false, if_false] at hpaths ⊢
      rcases List.append_eq_nil.mp hpaths with ⟨hinner, htail⟩
      have hcs : cntF p cs = 0 :=
        ihcs b 0 hb (List.map_eq_nil_iff.mp hinner)
      have hb2 : (pathsRun p b 0 cs).2 = b := by
        rw [pathsRun_budget, hcs, consume_zero]
      have hf : cntF p f = 0 := by
        apply ihf ((pathsRun p b 0 cs).2) (i + 1) _ htail
        rw [hb2]
        exact hb
      simp [hcs, hf]

/-- An empty match listing makes the removal sweep a no-op with unchanged
budget. -/
theorem pathsRun_nil_dropRun (p : Elem → Bool) :
    ∀ f, ∀ b i, (pathsRun p b i f).1 = [] → dropRun p b f = (f, b) := by
  refine forest_ind _ ?_ ?_ ?_
  · intro b i _
    rfl
  · intro s f ih b i hpaths
    simp only [pathsRun] at hpaths
    by_cases hc : (budgetPos b && p (.text s)) = true
    · simp [hc] at hpaths
    · simp only [Bool.not_eq_true] at hc
      simp only [hc, if_false] at hpaths
      simp [dropRun, hc, ih b (i + 1) hpaths]
  · intro n a cs f ihcs ihf b i hpaths
    simp only [pathsRun] at hpaths
    by_cases hc : (budgetPos b && p (.tag n a cs)) = true
    · simp [hc] at hpaths
    · simp only [Bool.not_eq_true] at hc
      simp only [hc, if_false] at hpaths
      rcases List.append_eq_nil.mp hpaths with ⟨hinner, htail⟩
      have hcs := ihcs b 0 (List.map_eq_nil_iff.mp hinner)
      have hb2 : (pathsRun p b 0 cs).2 = b := by
        by_cases hb : budgetPos b = true
        · rw [pathsRun_budget, pathsRun_nil_cnt p cs b 0 hb (List.map_eq_nil_iff.mp hinner),
            consume_zero]
        · rw [Bool.not_eq_true] at hb
          rw [pathsRun_budget]
          exact consume_of_not_pos _ hb _
      rw [hb2] at htail
      have hf := ihf b (i + 1) htail
      simp [dropRun, hc, hcs, hf]

/-- A path is a prefix of itself. -/
theorem isPre_refl (p : List Nat) : isPre p p = true := by
  induction p with
  | nil => rfl
  | cons i p ih => simp [isPre, ih]

/-- Prefix testing strips a common head index. -/
theorem isPre_cons_same (i : Nat) (p q : List Nat) :
    isPre (i :: p) (i :: q) = isPre p q := by
  simp [isPre]

/-- A singleton path is a prefix of every path below that child. -/
theorem isPre_head (i : Nat) (q : List Nat) : isPre [i] (i :: q) = true := by
  simp [isPre]

/-- The propositional reading of pairwise disjointness. -/
theorem pairwiseFree_iff (as bs : List (List Nat)) :
    pairwiseFree as bs = true ↔
      ∀ p ∈ as, ∀ q ∈ bs, isPre p q = false ∧ isPre q p = false := by
  simp [pairwiseFree, List.all_eq_true, Bool.and_eq_true, Bool.not_eq_true']

/-- Dropping the matches of two budgeted recursive queries whose returned
match positions are pairwise disjoint subtrees gives the same forest in
either order, and neither sweep changes the budget consumption of the
other. -/
theorem dropRun_comm (pA pB : Elem → Bool) (hA : predOK pA) (hB : predOK pB) :
    ∀ f, ∀ bA bB i,
      pairwiseFree (pathsRun pA bA i f).1 (pathsRun pB bB i f).1 = true →
      (dropRun pB bB (dropRun pA bA f).1).1 =
        (dropRun pA bA (dropRun pB bB f).1).1 ∧
      (dropRun pB bB (dropRun pA bA f).1).2 = consume bB (cntF pB f) ∧
      (dropRun pA bA (dropRun pB bB f).1).2 = consume bA (cntF pA f) := by
  refine forest_ind _ ?_ ?_ ?_
  · intro bA bB i _
    simp [dropRun, cntF, consume_zero]
  · intro s f ih bA bB i hfree
    have hat : pA (.text s) = false := hA.1 s
    have hbt : pB (.text s) = false := hB.1 s
    have hfree2 : pairwiseFree (pathsRun pA bA (i + 1) f).1
        (pathsRun pB bB (i + 1) f).1 = true := by
      simpa [pathsRun, hat, hbt] using hfree
    obtain ⟨h1, h2, h3⟩ := ih bA bB (i + 1) hfree2
    refine ⟨?_, ?_, ?_⟩
    · simp [dropRun, hat, hbt, h1]
    · simp [dropRun, cntF, hat, hbt, h2]
    · simp [dropRun, cntF, hat, hbt, h3]
  · intro n a cs f ihcs ihf bA bB i hfree
    have hfree' := (pairwiseFree_iff _ _).mp hfree
    by_cases ha : (budgetPos bA && pA (.tag n a cs)) = true
    · by_cases hbq : (budgetPos bB && pB (.tag n a cs)) = true
      · -- both queries return this node: positions coincide, contradiction
        have hpA : [i] ∈ (pathsRun pA bA i (.cons (.tag n a cs) f)).1 := by
          simp [pathsRun, ha]
        have hpB : [i] ∈ (pathsRun pB bB i (.cons (.tag n a cs) f)).1 := by
          simp [pathsRun, hbq]
        have := (hfree' [i] hpA [i] hpB).1
        rw [isPre_refl] at this
        exact absurd this (by simp)
      · -- A removes this node; B returns nothing at or below it
        rw [Bool.not_eq_true] at hbq
        have hpAhead : [i] ∈ (pathsRun pA bA i (.cons (.tag n a cs) f)).1 := by
          simp [pathsRun, ha]
        have hinnerB : (pathsRun pB bB 0 cs).1 = [] := by
          rcases hql : (pathsRun pB bB 0 cs).1 with _ | ⟨q, qs⟩
          · rfl
          · exfalso
            have hqmem : (i :: q) ∈
                (pathsRun pB bB i (.cons (.tag n a cs) f)).1 := by
              simp only [pathsRun, hbq, if_false]
              exact List.mem_append_left _
                (List.mem_map_of_mem _ (by rw [hql]; exact List.mem_cons_self q qs))
            have := (hfree' [i] hpAhead (i :: q) hqmem).1
            rw [isPre_head] at this
            exact absurd this (by simp)
        have hdropBcs : dropRun pB bB cs = (cs, bB) :=
          pathsRun_nil_dropRun pB cs bB 0 hinnerB
        have hbB2 : (pathsRun pB bB 0 cs).2 = bB := by
          by_cases hb : budgetPos bB = true
          · rw [pathsRun_budget, pathsRun_nil_cnt pB cs bB 0 hb hinnerB,
              consume_zero]
          · rw [Bool.not_eq_true] at hb
            rw [pathsRun_budget]
            exact consume_of_not_pos _ hb _
        have hbA2 : (pathsRun pA (consume bA 1) 0 cs).2 =
            consume bA (1 + cntF pA cs) := by
          rw [pathsRun_budget, consume_consume]
        have htails : pairwiseFree
            (pathsRun pA (consume bA (1 + cntF pA cs)) (i + 1) f).1
            (pathsRun pB bB (i + 1) f).1 = true := by
          rw [pairwiseFree_iff]
          intro p hp q hq
          apply hfree'
          · simp only [pathsRun, ha, if_true]
            apply List.mem_cons_of_mem
            apply List.mem_append_right
            rw [hbA2]
            exact hp
          · simp only [pathsRun, hbq, if_false]
            apply List.mem_append_right
            rw [hbB2]
            exact hq
        obtain ⟨h1, h2, h3⟩ := ihf (consume bA (1 + cntF pA cs)) bB (i + 1) htails
        have hflagB : consume bB ((if pB (.tag n a cs) = true then 1 else 0) +
            cntF pB cs + cntF pB f) = consume bB (cntF pB f) := by
          by_cases hb : budgetPos bB = true
          · have hpbe : pB (.tag n a cs) = false := by
              cases hpb : pB (.tag n a cs)
              · rfl
              · rw [hb, hpb] at hbq; simp at hbq
            rw [pathsRun_nil_cnt pB cs bB 0 hb hinnerB, hpbe]
            simp
          · rw [Bool.not_eq_true] at hb
            rw [consume_of_not_pos _ hb, consume_of_not_pos _ hb]
        refine ⟨?_, ?_, ?_⟩
        · simp only [dropRun, ha, if_true, hbq, if_false, hdropBcs, h1]
        · simp only [dropRun, ha, if_true, h2, cntF]
          exact hflagB.symm
        · simp only [dropRun, ha, if_true, hbq, if_false, hdropBcs, h3, cntF]
          rw [consume_consume]
          congr 1
          have : pA (.tag n a cs) = true := by
            cases hpa : pA (.tag n a cs)
            · rw [hpa, Bool.and_false] at ha; exact absurd ha (by simp)
            · rfl
          rw [this]
          simp
          all_goals omega
    · by_cases hbq : (budgetPos bB && pB (.tag n a cs)) = true
      · -- B removes this node; A returns nothing at or below it
        rw [Bool.not_eq_true] at ha
        have hpBhead : [i] ∈ (pathsRun pB bB i (.cons (.tag n a cs) f)).1 := by
          simp [pathsRun, hbq]
        have hinnerA : (pathsRun pA bA 0 cs).1 = [] := by
          rcases hql : (pathsRun pA bA 0 cs).1 with _ | ⟨q, qs⟩
          · rfl
          · exfalso
            have hqmem : (i :: q) ∈
                (pathsRun pA bA i (.cons (.tag n a cs) f)).1 := by
              simp only [pathsRun, ha, if_false]
              exact List.mem_append_left _
                (List.mem_map_of_mem _ (by rw [hql]; exact List.mem_cons_self q qs))
            have := (hfree' (i :: q) hqmem [i] hpBhead).2
            rw [isPre_head] at this
            exact absurd this (by simp)
        have hdropAcs : dropRun pA bA cs = (cs, bA) :=
          pathsRun_nil_dropRun pA cs bA 0 hinnerA
        have hbA2 : (pathsRun pA bA 0 cs).2 = bA := by
          by_cases hb : budgetPos bA = true
          · rw [pathsRun_budget, pathsRun_nil_cnt pA cs bA 0 hb hinnerA,
              consume_zero]
          · rw [Bool.not_eq_true] at hb
            rw [pathsRun_budget]
            exact consume_of_not_pos _ hb _
        have hbB2 : (pathsRun pB (consume bB 1) 0 cs).2 =
            consume bB (1 + cntF pB cs) := by
          rw [pathsRun_budget, consume_consume]
        have htails : pairwiseFree
            (pathsRun pA bA (i + 1) f).1
            (pathsRun pB (consume bB (1 + cntF pB cs)) (i + 1) f).1 = true := by
          rw [pairwiseFree_iff]
          intro p hp q hq
          apply hfree'
          · simp only [pathsRun, ha, if_false]
            apply List.mem_append_right
            rw [hbA2]
            exact hp
          · simp only [pathsRun, hbq, if_true]
            apply List.mem_cons_of_mem
            apply List.mem_append_right
            rw [hbB2]
            exact hq
        obtain ⟨h1, h2, h3⟩ := ihf bA (consume bB (1 + cntF pB cs)) (i + 1) htails
        have hflagA : consume bA ((if pA (.tag n a cs) = true then 1 else 0) +
            cntF pA cs + cntF pA f) = consume bA (cntF pA f) := by
          by_cases hb : budgetPos bA = true
          · have hpae : pA (.tag n a cs) = false := by
              cases hpa : pA (.tag n a cs)
              · rfl
              · rw [hb, hpa] at ha; simp at ha
            rw [pathsRun_nil_cnt pA cs bA 0 hb hinnerA, hpae]
            simp
          · rw [Bool.not_eq_true] at hb
            rw [consume_of_not_pos _ hb, consume_of_not_pos _ hb]
        refine ⟨?_, ?_, ?_⟩
        · simp only [dropRun, hbq, if_true, ha, if_false, hdropAcs, h1]
        · simp only [dropRun, hbq, if_true, ha, if_false, hdropAcs, h2, cntF]
          rw [consume_consume]
          congr 1
          have : pB (.tag n a cs) = true := by
            cases hpb : pB (.tag n a cs)
            · rw [hpb, Bool.and_false] at hbq; exact absurd hbq (by simp)
            · rfl
          rw [this]
          simp
          all_goals omega
        · simp only [dropRun, hbq, if_true, h3, cntF]
          exact hflagA.symm
      · -- neither removes this node: recurse into children and siblings
        rw [Bool.not_eq_true] at ha hbq
        have hfreeInner : pairwiseFree (pathsRun pA bA 0 cs).1
            (pathsRun pB bB 0 cs).1 = true := by
          rw [pairwiseFree_iff]
          intro p hp q hq
          have hp2 : (i :: p) ∈ (pathsRun pA bA i (.cons (.tag n a cs) f)).1 := by
            simp only [pathsRun, ha, if_false]
            exact List.mem_append_left _ (List.mem_map_of_mem _ hp)
          have hq2 : (i :: q) ∈ (pathsRun pB bB i (.cons (.tag n a cs) f)).1 := by
            simp only [pathsRun, hbq, if_false]
            exact List.mem_append_left _ (List.mem_map_of_mem _ hq)
          have := hfree' (i :: p) hp2 (i :: q) hq2
          rw [isPre_cons_same, isPre_cons_same] at this
          exact this
        obtain ⟨g1, g2, g3⟩ := ihcs bA bB 0 hfreeInner
        have hbA2 : (pathsRun pA bA 0 cs).2 = consume bA (cntF pA cs) :=
          pathsRun_budget pA cs bA 0
        have hbB2 : (pathsRun pB bB 0 cs).2 = consume bB (cntF pB cs) :=
          pathsRun_budget pB cs bB 0
        have htails : pairwiseFree
            (pathsRun pA (consume bA (cntF pA cs)) (i + 1) f).1
            (pathsRun pB (consume bB (cntF pB cs)) (i + 1) f).1 = true := by
          rw [pairwiseFree_iff]
          intro p hp q hq
          apply hfree'
          · simp only [pathsRun, ha, if_false]
            apply List.mem_append_right
            rw [hbA2]
            exact hp
          · simp only [pathsRun, hbq, if_false]
            apply List.mem_append_right
            rw [hbB2]
            exact hq
        obtain ⟨k1, k2, k3⟩ :=
          ihf (consume bA (cntF pA cs)) (consume bB (cntF pB cs)) (i + 1) htails
        have hdA2 : (dropRun pA bA cs).2 = consume bA (cntF pA cs) :=
          dropRun_budget pA cs bA
        have hdB2 : (dropRun pB bB cs).2 = consume bB (cntF pB cs) :=
          dropRun_budget pB cs bB
        have hlocB : pB (.tag n a (dropRun pA bA cs).1) = pB (.tag n a cs) :=
          hB.2 n a _ _
        have hlocA : pA (.tag n a (dropRun pB bB cs).1) = pA (.tag n a cs) :=
          hA.2 n a _ _
        have hflagA : consume bA ((if pA (.tag n a cs) = true then 1 else 0) +
            cntF pA cs + cntF pA f) =
            consume bA (cntF pA cs + cntF pA f) := by
          by_cases hb : budgetPos bA = true
          · have hpae : pA (.tag n a cs) = false := by
              cases hpa : pA (.tag n a cs)
              · rfl
              · rw [hb, hpa] at ha; simp at ha
            rw [hpae]
            simp
          · rw [Bool.not_eq_true] at hb
            rw [consume_of_not_pos _ hb, consume_of_not_pos _ hb]
        have hflagB : consume bB ((if pB (.tag n a cs) = true then 1 else 0) +
            cntF pB cs + cntF pB f) =
            consume bB (cntF pB cs + cntF pB f) := by
          by_cases hb : budgetPos bB = true
          · have hpbe : pB (.tag n a cs) = false := by
              cases hpb : pB (.tag n a cs)
              · rfl
              · rw [hb, hpb] at hbq; simp at hbq
            rw [hpbe]
            simp
          · rw [Bool.not_eq_true] at hb
            rw [consume_of_not_pos _ hb, consume_of_not_pos _ hb]
        refine ⟨?_, ?_, ?_⟩
        · simp only [dropRun, ha, hbq, if_false, hlocB, hlocA, Bool.and_false]
          simp only [hdA2, hdB2, g1, g2, g3, k1]
          simp
        · simp only [dropRun, ha, hbq, if_false, hlocB, Bool.and_false, cntF]
          simp only [hdA2, g2, k2]
          simp only [consume_consume]
          exact hflagB.symm
        · simp only [dropRun, ha, hbq, if_false, hlocA, Bool.and_false, cntF]
          simp only [hdB2, g3, k3]
          simp only [consume_consume]
          exact hflagA.symm

/-- Disjointness of match positions is symmetric. -/
theorem pairwiseFree_comm (as bs : List (List Nat))
    (h : pairwiseFree as bs = true) : pairwiseFree bs as = true := by
  rw [pairwiseFree_iff] at h ⊢
  intro p hp q hq
  exact ⟨(h q hq p hp).2, (h q hq p hp).1⟩

/-- Removing matching direct children for two predicates commutes. -/
theorem removeDirect_comm (pA pB : Elem → Bool) :
    ∀ f, removeDirect pB (removeDirect pA f) =
      removeDirect pA (removeDirect pB f) := by
  have step : ∀ (e : Elem) (f : Forest),
      removeDirect pB (removeDirect pA f) = removeDirect pA (removeDirect pB f) →
      removeDirect pB (removeDirect pA (.cons e f)) =
        removeDirect pA (removeDirect pB (.cons e f)) := by
    intro e f ih
    by_cases hpa : pA e = true
    · by_cases hpb : pB e = true
      · simp [removeDirect, hpa, hpb, ih]
      · rw [Bool.not_eq_true] at hpb
        simp [removeDirect, hpa, hpb, ih]
    · rw [Bool.not_eq_true] at hpa
      by_cases hpb : pB e = true
      · simp [removeDirect, hpa, hpb, ih]
      · rw [Bool.not_eq_true] at hpb
        simp [removeDirect, hpa, hpb, ih]
  refine forest_ind _ rfl (fun s f ih => step _ f ih)
    (fun n a cs f _ ih => step _ f ih)

/-- A direct-children removal and a budgeted recursive sweep with pairwise
disjoint match positions commute, and the sweep's budget consumption is
unchanged by the direct removal. -/
theorem direct_run_comm (pA pB : Elem → Bool) (hA : predOK pA)
    (hB : predOK pB) :
    ∀ f, ∀ bB i,
      pairwiseFree (directPaths pA i f) (pathsRun pB bB i f).1 = true →
      dropRun pB bB (removeDirect pA f) =
        (removeDirect pA (dropRun pB bB f).1, (dropRun pB bB f).2) := by
  refine forest_ind _ ?_ ?_ ?_
  · intro bB i _
    rfl
  · intro s f ih bB i hfree
    have hat : pA (.text s) = false := hA.1 s
    have hbt : pB (.text s) = false := hB.1 s
    have hfree2 : pairwiseFree (directPaths pA (i + 1) f)
        (pathsRun pB bB (i + 1) f).1 = true := by
      simpa [directPaths, pathsRun, hat, hbt] using hfree
    have ih2 := ih bB (i + 1) hfree2
    simp [removeDirect, dropRun, hat, hbt, ih2]
  · intro n a cs f ihcs ihf bB i hfree
    have hfree' := (pairwiseFree_iff _ _).mp hfree
    by_cases hpa : pA (.tag n a cs) = true
    · -- the direct removal takes this node; the sweep must not touch it
      have hpAhead : [i] ∈ directPaths pA i (.cons (.tag n a cs) f) := by
        simp [directPaths, hpa]
      have hbq : (budgetPos bB && pB (.tag n a cs)) = false := by
        cases hc : (budgetPos bB && pB (.tag n a cs)) with
        | false => rfl
        | true =>
          exfalso
          have hpB : [i] ∈ (pathsRun pB bB i (.cons (.tag n a cs) f)).1 := by
            simp [pathsRun, hc]
          have := (hfree' [i] hpAhead [i] hpB).1
          rw [isPre_refl] at this
          exact absurd this (by simp)
      have hinnerB : (pathsRun pB bB 0 cs).1 = [] := by
        rcases hql : (pathsRun pB bB 0 cs).1 with _ | ⟨q, qs⟩
        · rfl
        · exfalso
          have hqmem : (i :: q) ∈
              (pathsRun pB bB i (.cons (.tag n a cs) f)).1 := by
            simp only [pathsRun, hbq, if_false]
            exact List.mem_append_left _
              (List.mem_map_of_mem _ (by rw [hql]; exact List.mem_cons_self q qs))
          have := (hfree' [i] hpAhead (i :: q) hqmem).1
          rw [isPre_head] at this
          exact absurd this (by simp)
      have hdropBcs : dropRun pB bB cs = (cs, bB) :=
        pathsRun_nil_dropRun pB cs bB 0 hinnerB
      have hbB2 : (pathsRun pB bB 0 cs).2 = bB := by
        by_cases hb : budgetPos bB = true
        · rw [pathsRun_budget, pathsRun_nil_cnt pB cs bB 0 hb hinnerB,
            consume_zero]
        · rw [Bool.not_eq_true] at hb
          rw [pathsRun_budget]
          exact consume_of_not_pos _ hb _
      have htails : pairwiseFree (directPaths pA (i + 1) f)
          (pathsRun pB bB (i + 1) f).1 = true := by
        rw [pairwiseFree_iff]
        intro p hp q hq
        apply hfree'
        · simp only [directPaths, hpa, if_true]
          exact List.mem_append_right _ hp
        · simp only [pathsRun, hbq, if_false]
          apply List.mem_append_right
          rw [hbB2]
          exact hq
      have ih2 := ihf bB (i + 1) htails
      simp only [removeDirect, hpa, if_true, dropRun, hbq, if_false, hdropBcs,
        ih2]
      simp

    · have hpa2 : pA (.tag n a cs) = false := by
        rw [Bool.not_eq_true] at hpa
        exact hpa
      by_cases hbq : (budgetPos bB && pB (.tag n a cs)) = true
      · -- the sweep removes this node wholesale
        have htails : pairwiseFree (directPaths pA (i + 1) f)
            (pathsRun pB (consume bB (1 + cntF pB cs)) (i + 1) f).1 = true := by
          rw [pairwiseFree_iff]
          intro p hp q hq
          apply hfree'
          · simp only [directPaths, hpa2, if_false]
            simpa using hp
          · simp only [pathsRun, hbq, if_true]
            apply List.mem_cons_of_mem
            apply List.mem_append_right
            rw [pathsRun_budget, consume_consume]
            exact hq
        have ih2 := ihf (consume bB (1 + cntF pB cs)) (i + 1) htails
        simp only [removeDirect, hpa2, if_false, dropRun, hbq, if_true, ih2]
        try simp [removeDirect, hpa2]
      · -- neither takes this node
        have hbq2 : (budgetPos bB && pB (.tag n a cs)) = false := by
          rw [Bool.not_eq_true] at hbq
          exact hbq
        have htails : pairwiseFree (directPaths pA (i + 1) f)
            (pathsRun pB (consume bB (cntF pB cs)) (i + 1) f).1 = true := by
          rw [pairwiseFree_iff]
          intro p hp q hq
          apply hfree'
          · simp only [directPaths, hpa2, if_false]
            simpa using hp
          · simp only [pathsRun, hbq2, if_false]
            apply List.mem_append_right
            rw [pathsRun_budget]
            exact hq
        have ih2 := ihf (consume bB (cntF pB cs)) (i + 1) htails
        have hdB2 : (dropRun pB bB cs).2 = consume bB (cntF pB cs) :=
          dropRun_budget pB cs bB
        have hlocA : pA (.tag n a (dropRun pB bB cs).1) = pA (.tag n a cs) :=
          hA.2 n a _ _
        simp only [removeDirect, hpa2, if_false, dropRun, hbq2, hdB2, ih2,
          hlocA]
        try simp [removeDirect, hlocA, hpa2]

/-- The two removal behaviours of any two locators commute on forests whose
match positions are pairwise disjoint. -/
theorem dropK_comm (kA kB : DropKind) (hA : kindOK kA) (hB : kindOK kB)
    (f : Forest)
    (hd : pairwiseFree (selPathsK kA f) (selPathsK kB f) = true) :
    dropK kB (dropK kA f) = dropK kA (dropK kB f) := by
  cases kA with
  | adj a b lim => exact hA.elim
  | idK => rfl
  | direct pA =>
    cases kB with
    | adj a b lim => exact hB.elim
    | idK => rfl
    | direct pB => exact removeDirect_comm pA pB f
    | run pB bB =>
      have h := direct_run_comm pA pB hA hB f bB 0 hd
      show (dropRun pB bB (removeDirect pA f)).1 =
        removeDirect pA (dropRun pB bB f).1
      rw [h]
  | run pA bA =>
    cases kB with
    | adj a b lim => exact hB.elim
    | idK => rfl
    | direct pB =>
      have h := direct_run_comm pB pA hB hA f bA 0 (pairwiseFree_comm _ _ hd)
      show removeDirect pB (dropRun pA bA f).1 =
        (dropRun pA bA (removeDirect pB f)).1
      rw [h]
    | run pB bB =>
      exact (dropRun_comm pA pB hA hB f bA bB 0 hd).1

/-- A node-local locator's removal behaviour carries a well-behaved
predicate. -/
theorem nodeLocal_kindOK (l : Locator) (h : isNodeLocal l = true) :
    kindOK l.dropKind := by
  cases l with
  | tagLoc t =>
    simp only [Locator.dropKind]
    by_cases hl : t.limit.isSome = true
    · simp [hl, kindOK]
    · by_cases hr : t.recursive = true
      · simp only [hl, hr, if_false, if_true]
        exact ⟨fun s => rfl, fun n a cs cs2 => rfl⟩
      · simp only [hl, hr, if_false]
        exact ⟨fun s => rfl, fun n a cs cs2 => rfl⟩
  | cssLoc c =>
    simp only [Locator.dropKind]
    rcases hp : parseSel c.selector with t | ⟨a2, b2⟩
    · simp only [hp]
      exact ⟨fun s => rfl, fun n a cs cs2 => rfl⟩
    · simp [isNodeLocal, hp] at h
  | strLoc s =>
    simp only [Locator.dropKind]
    rcases hp : parseSel s with t | ⟨a2, b2⟩
    · simp only [hp]
      exact ⟨fun s2 => rfl, fun n a cs cs2 => rfl⟩
    · simp [isNodeLocal, hp] at h

/-- C8 counterexample: with a contextual selector the claim as stated
fails. On the div holding a p, a q and an r child, the locators
"p + q" (matching exactly the q) and "p" (matching exactly the p) have
pairwise disjoint match subtrees, yet drop("p + q", "p") leaves only
the r child while drop("p", "p + q") leaves q and r: removing the p
first destroys the adjacency, so "p + q" no longer matches on the
mutated draft. -/
theorem claim_C8_counterexample :
    pairwiseFree (selPaths (.strLoc "p + q") adjFixture)
      (selPaths (.strLoc "p") adjFixture) = true ∧
    drop [.strLoc "p + q", .strLoc "p"] adjFixture =
      .tag "div" [] (.ofList [.tag "r" [] (.cons (.text "d") .nil)]) ∧
    drop [.strLoc "p", .strLoc "p + q"] adjFixture =
      .tag "div" [] (.ofList
        [.tag "q" [] (.cons (.text "c") .nil),
         .tag "r" [] (.cons (.text "d") .nil)]) ∧
    drop [.strLoc "p + q", .strLoc "p"] adjFixture ≠
      drop [.strLoc "p", .strLoc "p + q"] adjFixture :=
  ⟨rfl, rfl, rfl, by decide⟩

/-- C8 amended: for every draft tree and any two node-local locators
(a TagLocator, or a CSS/string locator whose selector is a plain type
selector, with no combinator) whose select_all matches are pairwise
disjoint subtrees of the draft, drop(locA, locB) and drop(locB, locA)
produce structurally equal drafts. -/
theorem claim_C8_drop_disjoint (root : Elem) (locA locB : Locator)
    (hla : isNodeLocal locA = true) (hlb : isNodeLocal locB = true)
    (hd : pairwiseFree (selPaths locA root) (selPaths locB root) = true) :
    drop [locA, locB] root = drop [locB, locA] root := by
  have hA := nodeLocal_kindOK locA hla
  have hB := nodeLocal_kindOK locB hlb
  cases root with
  | text s => rfl
  | tag n a cs =>
    show dropOne locB (dropOne locA (.tag n a cs)) =
      dropOne locA (dropOne locB (.tag n a cs))
    simp only [dropOne]
    exact congrArg (fun g => Elem.tag n a g)
      (dropK_comm locA.dropKind locB.dropKind hA hB cs hd)

/-- C8 witness: the node-locality and disjointness hypotheses and the
commutation at the paragraph/quote fixture. -/
theorem claim_C8_witness :
    isNodeLocal (.strLoc "p") = true ∧
    isNodeLocal (.strLoc "q") = true ∧
    pairwiseFree (selPaths (.strLoc "p") dropFixture)
      (selPaths (.strLoc "q") dropFixture) = true ∧
    drop [.strLoc "p", .strLoc "q"] dropFixture =
      drop [.strLoc "q", .strLoc "p"] dropFixture :=
  ⟨rfl, rfl, rfl,
    claim_C8_drop_disjoint dropFixture (.strLoc "p") (.strLoc "q") rfl rfl rfl⟩

end ML
